import Mathlib

/-
Verification of the themekit manifest/reconciliation engine.

The Go source is embedded shallowly: Go maps (map[string]T) become
association lists with first-occurrence lookup and normalizing insert,
Go (value, error) pairs become products with Option errors, and the
fork-join remote listing becomes a fold over the list of per-client
outcomes in completion order.
-/

namespace Themekit

abbrev Version := String

/-- Association-list model of a Go map with string keys: lookup returns the
first binding, insert removes every old binding for the key and prepends the
new one, so lists built by insert always have distinct keys. -/
abbrev SMap (α : Type) := List (String × α)

def SMap.find {α : Type} : SMap α → String → Option α
  | [], _ => none
  | (k, v) :: rest, key => if k = key then some v else SMap.find rest key

def SMap.eraseAll {α : Type} : SMap α → String → SMap α
  | [], _ => []
  | (k, v) :: rest, key =>
    if k = key then SMap.eraseAll rest key else (k, v) :: SMap.eraseAll rest key

def SMap.insert {α : Type} (m : SMap α) (k : String) (v : α) : SMap α :=
  (k, v) :: SMap.eraseAll m k

def SMap.keys {α : Type} (m : SMap α) : List String :=
  m.map Prod.fst

/-- Error outcomes of the durable store. Modelled from the spec: the store
contract names a collection-not-found condition, a key-not-found condition,
and leaves room for other I/O failures. -/
inductive StoreErr where
  | collectionNotFound
  | keyNotFound
  | ioError (msg : String)
deriving DecidableEq

/-- Modelled from the spec: the ystore durable version store is a nested
key-value store, collection (file path) to key (environment) to value
(version token); the repository file defining it is not part of the
extracted sources, so its state is modelled as the nested map itself. -/
abbrev Store := SMap (SMap Version)

/-- Modelled from the spec: Read(collection, key) yields the stored value, a
collection-not-found error when the collection is missing, or a
key-not-found error when the key is missing; the value half of the pair is
empty in both error cases. -/
def Store.read (s : Store) (c k : String) : Version × Option StoreErr :=
  match SMap.find s c with
  | none => ("", some StoreErr.collectionNotFound)
  | some col =>
    match SMap.find col k with
    | none => ("", some StoreErr.keyNotFound)
    | some v => (v, none)

/-- Modelled from the spec: a committed batch write stores one value under
(collection, key), creating the collection when needed. -/
def Store.write (s : Store) (c k : String) (v : Version) : Store :=
  let col := (SMap.find s c).getD []
  SMap.insert s c (SMap.insert col k v)

/-- Modelled from the spec: Delete(collection, key) removes one entry. -/
def Store.delete (s : Store) (c k : String) : Store :=
  match SMap.find s c with
  | none => s
  | some col => SMap.insert s c (SMap.eraseAll col k)

/-- Modelled from the spec: DeleteCollection(collection) removes all entries
for a file. -/
def Store.deleteCollection (s : Store) (c : String) : Store :=
  SMap.eraseAll s c

/-- Modelled from the spec: Dump() returns the full nested snapshot. -/
def Store.dump (s : Store) : SMap (SMap Version) := s

/-- A batch of staged writes (collection, key, value); Commit applies them
all. Modelled from the spec. -/
abbrev Batch := List (String × String × String)

/-- Modelled from the spec: Commit atomically applies all staged writes. -/
def Store.commit (s : Store) (b : Batch) : Store :=
  b.foldl (fun st w => Store.write st w.1 w.2.1 w.2.2) s

/-- The fileManifest structure from cmd: the durable store plus an in-memory
mirror of it (local in Go, localM here since local is a Lean keyword) and the
ephemeral remote map. -/
structure fileManifest where
  store : Store
  localM : SMap (SMap Version)
  remote : SMap (SMap Version)

/-- One configured theme client, reduced to the fields the manifest code
reads: Config.Environment and Config.Directory. -/
structure themeClient where
  environment : String
  directory : String

/-- The outcome of one AssetList query, tagged with the environment of the
client that ran it, listed in completion order. Each asset contributes its
(Key, UpdatedAt) pair. -/
structure clientResult where
  environment : String
  assetList : Except String (List (String × Version))

/-- The body of the per-asset merge in generateRemote: if remote lacks the
key, create the inner map, then set remote[key][environment] = updatedAt. -/
def mergeAsset (remote : SMap (SMap Version)) (env : String) (a : String × Version) :
    SMap (SMap Version) :=
  let col := (SMap.find remote a.1).getD []
  SMap.insert remote a.1 (SMap.insert col env a.2)

/-- generateRemote, with the errgroup fork-join modelled from the spec:
the per-client goroutine outcomes are consumed as a list in completion
order; every outcome is processed (no cancellation), a successful listing
merges all its assets, and the first error in completion order is recorded
once and returned after the fold has consumed every outcome. -/
def generateRemote (completions : List clientResult) :
    SMap (SMap Version) × Option String :=
  completions.foldl
    (fun acc cr =>
      match cr.assetList with
      | Except.error e =>
        (acc.1, match acc.2 with
          | some e0 => some e0
          | none => some e)
      | Except.ok assets =>
        (assets.foldl (fun r a => mergeAsset r cr.environment a) acc.1, acc.2))
    ([], none)

/-- The first error among the completion-ordered outcomes, none if all
succeeded. -/
def firstError (completions : List clientResult) : Option String :=
  completions.findSome? (fun cr =>
    match cr.assetList with
    | Except.error e => some e
    | Except.ok _ => none)

/-- Looks one (filename, environment) entry up in a nested map. -/
def entryVal (m : SMap (SMap Version)) (f e : String) : Option Version :=
  (SMap.find m f).bind (fun c => SMap.find c e)

/-- Whether the nested map has an entry at (filename, environment). -/
def entryPresent (m : SMap (SMap Version)) (f e : String) : Bool :=
  match SMap.find m f with
  | none => false
  | some c => (SMap.find c e).isSome

/-- The writes backfillLocal stages: for each remote (filename, envmap), only
when the filename is found in localM, every (env, version) whose env the
local entry lacks. -/
def fileManifest.backfillWrites (m : fileManifest) : Batch :=
  m.remote.flatMap (fun fr =>
    match SMap.find m.localM fr.1 with
    | none => []
    | some localEnvs =>
      (fr.2.filter (fun ev => (SMap.find localEnvs ev.1).isNone)).map
        (fun ev => (fr.1, ev.1, ev.2)))

/-- backfillLocal: stage the writes, commit the batch once, reload localM
from the store. -/
def fileManifest.backfillLocal (m : fileManifest) : fileManifest :=
  let store' := Store.commit m.store m.backfillWrites
  { m with store := store', localM := Store.dump store' }

/-- Whether some environment directory holds the file as a regular file;
fs is the set of (directory, filename) pairs naming existing regular files,
standing for the os.Stat check. -/
def fileExists (fs : List (String × String)) (dir filename : String) : Bool :=
  fs.any (fun p => p.1 == dir && p.2 == filename)

/-- prune: pass one deletes the whole collection of every filename known
locally, unreported by remote, and on no configured environment disk (the
indexOf scan returning -1); pass two deletes every (filename, environment)
entry whose environment is not among the configured clients; localM is
reloaded once at the end. -/
def fileManifest.prune (m : fileManifest) (fs : List (String × String))
    (clients : List themeClient) : fileManifest :=
  let store1 := m.localM.foldl
    (fun s fr =>
      if (SMap.find m.remote fr.1).isNone
          && !(clients.any (fun c => fileExists fs c.directory fr.1))
      then Store.deleteCollection s fr.1
      else s)
    m.store
  let store2 := m.localM.foldl
    (fun s fr =>
      fr.2.foldl
        (fun s2 ev =>
          if clients.any (fun c => c.environment == ev.1) then s2
          else Store.delete s2 fr.1 ev.1)
        s)
    store1
  { m with store := store2, localM := Store.dump store2 }

/-- diffDates, with parseTime abstracted to a map pt from token strings to
naturals standing for the parsed instants; the Go zero time is 0, and the
Go map read of a missing key hands parseTime the empty string just as the
source does. -/
def fileManifest.diffDates (m : fileManifest) (pt : String → Nat)
    (filename dstEnv srcEnv : String) : Nat × Nat :=
  let l := match SMap.find m.localM filename with
    | some c => pt ((SMap.find c srcEnv).getD "")
    | none => 0
  let r := match SMap.find m.remote filename with
    | some c => pt ((SMap.find c dstEnv).getD "")
    | none => 0
  (l, r)

/-- time.Time.Before on the abstract instants. -/
def timeBefore (a b : Nat) : Bool := decide (a < b)

/-- time.Time.IsZero on the abstract instants. -/
def timeIsZero (a : Nat) : Bool := decide (a = 0)

def fileManifest.NeedsDownloading (m : fileManifest) (pt : String → Nat)
    (filename environment : String) : Bool :=
  let d := m.diffDates pt filename environment environment
  timeBefore d.1 d.2 || timeIsZero d.1

def fileManifest.ShouldUpload (m : fileManifest) (pt : String → Nat)
    (filename environment : String) : Bool :=
  let d := m.diffDates pt filename environment environment
  timeBefore d.2 d.1 || timeIsZero d.2 || timeIsZero d.1

def fileManifest.ShouldRemove (m : fileManifest) (pt : String → Nat)
    (filename environment : String) : Bool :=
  let d := m.diffDates pt filename environment environment
  timeBefore d.2 d.1 || timeIsZero d.1

/-- Whether a requested name holds the wildcard character, the
strings.Contains check of the source, on the character list of the name. -/
def containsWildcard (s : String) : Bool := s.data.contains '*'

/-- FetchableFiles, with filepath.Match abstracted to matchFn: an empty
request collects every remote key; otherwise names without a wildcard pass
through and each remote key is appended once per wildcard it matches. -/
def fileManifest.FetchableFiles (m : fileManifest) (matchFn : String → String → Bool)
    (filenames : List String) : List String :=
  if filenames.length ≤ 0 then
    SMap.keys m.remote
  else
    let wildCards := filenames.filter (fun f => containsWildcard f)
    let literals := filenames.filter (fun f => !(containsWildcard f))
    let expanded :=
      if 0 < wildCards.length then
        (SMap.keys m.remote).flatMap (fun assetName =>
          (wildCards.filter (fun w => matchFn w assetName)).map (fun _ => assetName))
      else []
    literals ++ expanded

/-- Set: record remote[filename][environment] = value, then stage a write
for every (env, version) held for that filename whose store check passes;
the check reads the store at the target environment, not at the loop
variable, exactly as the source does; commit once and reload localM. -/
def fileManifest.Set (m : fileManifest) (filename environment value : String) :
    fileManifest :=
  let remoteCol := (SMap.find m.remote filename).getD []
  let remoteCol' := SMap.insert remoteCol environment value
  let remote' := SMap.insert m.remote filename remoteCol'
  let writes : Batch :=
    (remoteCol'.filter (fun ev =>
      ((Store.read m.store filename environment).1 == "") || (ev.1 == environment))).map
      (fun ev => (filename, ev.1, ev.2))
  let store' := Store.commit m.store writes
  { store := store', localM := Store.dump store', remote := remote' }

/-- Delete: remove the entry from the durable store, drop it from the
in-memory remote map when present, reload localM. -/
def fileManifest.Delete (m : fileManifest) (filename environment : String) :
    fileManifest :=
  let store' := Store.delete m.store filename environment
  let remote' := match SMap.find m.remote filename with
    | some col => SMap.insert m.remote filename (SMap.eraseAll col environment)
    | none => m.remote
  { store := store', localM := Store.dump store', remote := remote' }

/-- The translation Get applies to the outcome of the store read: a
collection-not-found or key-not-found error becomes no error, any other
error is propagated with an empty value. -/
def getFromRead (r : Version × Option StoreErr) : Version × Option StoreErr :=
  match r.2 with
  | some e =>
    if e ≠ StoreErr.collectionNotFound ∧ e ≠ StoreErr.keyNotFound then ("", some e)
    else (r.1, none)
  | none => (r.1, none)

def fileManifest.Get (m : fileManifest) (filename environment : String) :
    Version × Option StoreErr :=
  getFromRead (Store.read m.store filename environment)

/-- The kind of event the replace command queues for a filename:
kit.NewRemovalEvent or kit.NewUploadEvent. -/
inductive assetEventKind where
  | Remove
  | Upload
deriving DecidableEq

/-- The action map a full replace run (no filenames) builds: seed a Removal
event for every remote asset key, then overwrite with an Upload event for
every local asset key. -/
def replaceActions (remoteKeys localKeys : List String) : SMap assetEventKind :=
  let seeded := remoteKeys.foldl
    (fun acc k => SMap.insert acc k assetEventKind.Remove) []
  localKeys.foldl (fun acc k => SMap.insert acc k assetEventKind.Upload) seeded

/-- A local asset as the replace and upload commands see it: its key and
what IsValid returns on it. -/
structure asset where
  key : String
  valid : Bool

/-- The selective branch of the replace command: walk the given filenames,
look each up with LocalAsset, return the lookup error as soon as one occurs,
record an Upload action for each valid asset, and skip invalid ones. -/
def replaceSelective (localAsset : String → Except String asset) :
    List String → SMap assetEventKind → Except String (SMap assetEventKind)
  | [], acc => Except.ok acc
  | f :: rest, acc =>
    match localAsset f with
    | Except.error e => Except.error e
    | Except.ok a =>
      if a.valid then
        replaceSelective localAsset rest (SMap.insert acc a.key assetEventKind.Upload)
      else
        replaceSelective localAsset rest acc

def settingsDataKey : String := "config/settings_data.json"

/-- One theme client as the upload command sees it: its environment name,
the ReadOnly flag, and the outcomes of LocalAssets and LocalAsset. -/
structure uploadClient where
  environment : String
  readOnly : Bool
  localAssets : Except String (List asset)
  localAsset : String → Except String asset

/-- The filename loop of the upload command: collect LocalAsset results,
aborting with nothing collected as soon as one lookup errors. -/
def collectAssets (c : uploadClient) : List String → Except String (List asset)
  | [] => Except.ok []
  | f :: rest =>
    match c.localAsset f with
    | Except.error e => Except.error e
    | Except.ok a =>
      match collectAssets c rest with
      | Except.error e => Except.error e
      | Except.ok l => Except.ok (a :: l)

/-- The upload command pass, returning the assets it dispatches to
performUpload: nothing when the environment is read-only or when gathering
the local assets failed; otherwise every gathered asset except the settings
data file. -/
def upload (c : uploadClient) (filenames : List String) : List asset :=
  if c.readOnly then []
  else
    match (if filenames.isEmpty then c.localAssets else collectAssets c filenames) with
    | Except.error _ => []
    | Except.ok assets => assets.filter (fun a => a.key != settingsDataKey)

/-- The settings-data pass of the upload command, returning the assets it
dispatches: nothing when read-only; otherwise the settings data asset when
no filenames were given or when the settings data key is among them. -/
def uploadSettingsData (c : uploadClient) (filenames : List String) : List asset :=
  if c.readOnly then []
  else
    let doupload : List asset :=
      match c.localAsset settingsDataKey with
      | Except.error _ => []
      | Except.ok a => [a]
    if filenames.isEmpty then doupload
    else if filenames.contains settingsDataKey then doupload
    else []

def readOnlyClient : uploadClient :=
  { environment := "production"
    readOnly := true
    localAssets := Except.ok [{ key := "layout/theme.liquid", valid := true }]
    localAsset := fun f => Except.ok { key := f, valid := true } }

def failingLookup : String → Except String asset := fun f =>
  if f == "a.liquid" then Except.error "open a.liquid: no such file"
  else Except.ok { key := f, valid := true }

def okLookup : String → Except String asset := fun f =>
  if f == "bad.liquid" then Except.ok { key := f, valid := false }
  else Except.ok { key := f, valid := true }

def freshManifest : fileManifest :=
  { store := [], localM := [], remote := [("assets/new.js", [("development", "2021-01-01T00:00:00Z")])] }

def seededManifest : fileManifest :=
  { store := [("layout/theme.liquid", [("development", "t1")])]
    localM := [("layout/theme.liquid", [("development", "t1")])]
    remote := [("layout/theme.liquid",
      [("development", "t2"), ("production", "t3")])] }

def staleEnvManifest : fileManifest :=
  { store := [("snippets/x.liquid", [("staging", "t1")])]
    localM := [("snippets/x.liquid", [("staging", "t1")])]
    remote := [("snippets/x.liquid", [("production", "t2")])] }

def pruneClients : List themeClient :=
  [{ environment := "production", directory := "/theme" }]

def keptManifest : fileManifest :=
  { store := [("assets/app.js", [("production", "t1")])]
    localM := [("assets/app.js", [("production", "t1")])]
    remote := [("assets/app.js", [("production", "t2")])] }

def storedManifest : fileManifest :=
  { store := [("config/settings_data.json", [("development", "t9")])]
    localM := [("config/settings_data.json", [("development", "t9")])]
    remote := [("config/settings_data.json", [("development", "t9")])] }

def emptyManifest : fileManifest := { store := [], localM := [], remote := [] }

def fetchManifest : fileManifest :=
  { store := [], localM := [], remote := [("a.liquid", []), ("base.css", [])] }

def cssMatch : String → String → Bool :=
  fun w a => w == "*.css" && a == "base.css"

def listingOk : clientResult :=
  { environment := "development"
    assetList := Except.ok [("layout/theme.liquid", "t1")] }

def listingFailed : clientResult :=
  { environment := "production", assetList := Except.error "listing failed" }

theorem SMap.find_eraseAll_ne {α : Type} (m : SMap α) (k k' : String) (h : k ≠ k') :
    SMap.find (SMap.eraseAll m k') k = SMap.find m k := by
  induction m with
  | nil => rfl
  | cons p rest ih =>
    obtain ⟨a, b⟩ := p
    by_cases ha : a = k'
    · subst ha
      simp [SMap.eraseAll, SMap.find, ih, Ne.symm h]
    · by_cases hk : a = k
      · subst hk
        simp [SMap.eraseAll, SMap.find, ha]
      · simp [SMap.eraseAll, SMap.find, ha, hk, ih]

theorem SMap.find_eraseAll_self {α : Type} (m : SMap α) (k : String) :
    SMap.find (SMap.eraseAll m k) k = none := by
  induction m with
  | nil => rfl
  | cons p rest ih =>
    obtain ⟨a, b⟩ := p
    by_cases ha : a = k
    · simp [SMap.eraseAll, ha, ih]
    · simp [SMap.eraseAll, SMap.find, ha, ih]

theorem SMap.find_insert_self {α : Type} (m : SMap α) (k : String) (v : α) :
    SMap.find (SMap.insert m k v) k = some v := by
  simp [SMap.insert, SMap.find]

theorem SMap.find_insert_ne {α : Type} (m : SMap α) (k k' : String) (v : α) (h : k ≠ k') :
    SMap.find (SMap.insert m k' v) k = SMap.find m k := by
  simp [SMap.insert, SMap.find, fun hh => h.symm (hh : k' = k)]
  exact SMap.find_eraseAll_ne m k k' h

theorem SMap.mem_eraseAll {α : Type} {m : SMap α} {k : String} {p : String × α}
    (h : p ∈ SMap.eraseAll m k) : p ∈ m ∧ p.1 ≠ k := by
  induction m with
  | nil => cases h
  | cons q rest ih =>
    obtain ⟨a, b⟩ := q
    by_cases ha : a = k
    · simp only [SMap.eraseAll, if_pos ha] at h
      exact ⟨List.mem_cons_of_mem _ (ih h).1, (ih h).2⟩
    · simp only [SMap.eraseAll, if_neg ha] at h
      rcases List.mem_cons.mp h with h1 | h2
      · exact ⟨List.mem_cons.mpr (Or.inl h1), by simp [h1, ha]⟩
      · exact ⟨List.mem_cons_of_mem _ (ih h2).1, (ih h2).2⟩

theorem SMap.find_mem {α : Type} {m : SMap α} {k : String} {v : α}
    (h : SMap.find m k = some v) : (k, v) ∈ m := by
  induction m with
  | nil => cases h
  | cons q rest ih =>
    obtain ⟨a, b⟩ := q
    by_cases ha : a = k
    · simp only [SMap.find, if_pos ha] at h
      subst ha
      cases h
      exact List.mem_cons_self _ _
    · simp only [SMap.find, if_neg ha] at h
      exact List.mem_cons_of_mem _ (ih h)

theorem Store.read_write_self (s : Store) (c k : String) (v : Version) :
    Store.read (Store.write s c k v) c k = (v, none) := by
  simp [Store.read, Store.write, SMap.find_insert_self]

theorem Store.read_write_ne_key (s : Store) (c k k' : String) (v : Version)
    (h : k ≠ k') (hcol : SMap.find s c ≠ none) :
    Store.read (Store.write s c k' v) c k = Store.read s c k := by
  cases hf : SMap.find s c with
  | none => exact absurd hf hcol
  | some col =>
    simp [Store.read, Store.write, hf, SMap.find_insert_self,
      SMap.find_insert_ne _ _ _ _ h]

theorem Store.find_write_self (s : Store) (c k : String) (v : Version) :
    SMap.find (Store.write s c k v) c ≠ none := by
  simp [Store.write, SMap.find_insert_self]

theorem Store.read_commit_keys_ne (c k : String) :
    ∀ (ws : Batch) (s : Store), SMap.find s c ≠ none →
      (∀ w ∈ ws, w.1 = c ∧ w.2.1 ≠ k) →
      Store.read (Store.commit s ws) c k = Store.read s c k := by
  intro ws
  induction ws with
  | nil => intro s _ _; rfl
  | cons w rest ih =>
    intro s hcol h
    obtain ⟨hw1, hw2⟩ := h w (List.mem_cons_self _ _)
    have hstep : Store.commit s (w :: rest) =
        Store.commit (Store.write s w.1 w.2.1 w.2.2) rest := rfl
    rw [hstep, hw1]
    have hcol' : SMap.find (Store.write s c w.2.1 w.2.2) c ≠ none :=
      Store.find_write_self s c w.2.1 w.2.2
    rw [ih _ hcol' (fun x hx => h x (List.mem_cons_of_mem _ hx))]
    exact Store.read_write_ne_key s c k w.2.1 w.2.2 (fun hh => hw2 hh.symm) hcol

/-- A parse map for witnesses: the length of the token string. -/
def ptLen : String → Nat := fun s => s.data.length

/-- A manifest whose ledger knows one token while the remote map is empty. -/
def diffManifest : fileManifest :=
  { store := [("assets/app.css", [("development", "x")])]
    localM := [("assets/app.css", [("development", "x")])]
    remote := [] }

/-- Claim C4: for every filename, environment and value, after Set
returns (the model Set is total, matching a Set that returned without
error), Get on the same filename and environment yields exactly that value
with no error. -/
theorem set_then_get (m : fileManifest) (f e v : String) :
    fileManifest.Get (fileManifest.Set m f e v) f e = (v, none) := by
  have hp : (((Store.read m.store f e).1 == "") || ((e : String) == e)) = true := by
    simp
  have hstore : (fileManifest.Set m f e v).store =
      Store.commit (Store.write m.store f e v)
        (((SMap.eraseAll ((SMap.find m.remote f).getD []) e).filter
            (fun ev => ((Store.read m.store f e).1 == "") || (ev.1 == e))).map
          (fun ev => (f, ev.1, ev.2))) := by
    simp only [fileManifest.Set, SMap.insert, List.filter_cons, hp, if_pos, List.map_cons,
      Store.commit, List.foldl_cons]
  have hrest : ∀ w ∈ (((SMap.eraseAll ((SMap.find m.remote f).getD []) e).filter
        (fun ev => ((Store.read m.store f e).1 == "") || (ev.1 == e))).map
      (fun ev : String × Version => (f, ev.1, ev.2))), w.1 = f ∧ w.2.1 ≠ e := by
    intro w hw
    obtain ⟨ev, hev, rfl⟩ := List.mem_map.mp hw
    refine ⟨rfl, ?_⟩
    have hev' := (List.mem_filter.mp hev).1
    exact fun hh => (SMap.mem_eraseAll hev').2 hh
  show getFromRead (Store.read (fileManifest.Set m f e v).store f e) = (v, none)
  rw [hstore, Store.read_commit_keys_ne f e _ _ (Store.find_write_self m.store f e v) hrest,
    Store.read_write_self]
  rfl

/-- Claim C5: after Delete succeeds, Get on the same pair returns the
empty value with no error; Get translates a missing collection and a
missing key into the empty value with no error, and propagates every other
store error unchanged. -/
theorem delete_then_get (m : fileManifest) (f e : String) :
    (fileManifest.Get (fileManifest.Delete m f e) f e = ("", none))
    ∧ (SMap.find m.store f = none → fileManifest.Get m f e = ("", none))
    ∧ (∀ col, SMap.find m.store f = some col → SMap.find col e = none →
        fileManifest.Get m f e = ("", none))
    ∧ (∀ (v : Version) (msg : String),
        getFromRead (v, some (StoreErr.ioError msg)) = ("", some (StoreErr.ioError msg))) := by
  refine ⟨?_, ?_, ?_, ?_⟩
  · show getFromRead (Store.read (Store.delete m.store f e) f e) = ("", none)
    cases hf : SMap.find m.store f with
    | none => simp [Store.delete, hf, Store.read, getFromRead]
    | some col =>
      simp [Store.delete, hf, Store.read, SMap.find_insert_self,
        SMap.find_eraseAll_self, getFromRead]
  · intro hf
    simp [fileManifest.Get, Store.read, hf, getFromRead]
  · intro col hf hcol
    simp [fileManifest.Get, Store.read, hf, hcol, getFromRead]
  · intro v msg
    rfl

/-- Claim C6: with local and remote the two diffDates timestamps,
NeedsDownloading holds iff local is before remote or local is zero;
ShouldUpload holds iff remote is before local, remote is zero, or local is
zero; ShouldRemove holds iff remote is before local or local is zero; the
equivalences quantify over every timestamp combination. -/
theorem decision_truth_table (m : fileManifest) (pt : String → Nat) (f e : String) :
    (fileManifest.NeedsDownloading m pt f e = true ↔
      ((m.diffDates pt f e e).1 < (m.diffDates pt f e e).2 ∨ (m.diffDates pt f e e).1 = 0))
    ∧ (fileManifest.ShouldUpload m pt f e = true ↔
      ((m.diffDates pt f e e).2 < (m.diffDates pt f e e).1 ∨ (m.diffDates pt f e e).2 = 0
        ∨ (m.diffDates pt f e e).1 = 0))
    ∧ (fileManifest.ShouldRemove m pt f e = true ↔
      ((m.diffDates pt f e e).2 < (m.diffDates pt f e e).1 ∨ (m.diffDates pt f e e).1 = 0)) := by
  refine ⟨?_, ?_, ?_⟩ <;>
    simp [fileManifest.NeedsDownloading, fileManifest.ShouldUpload,
      fileManifest.ShouldRemove, timeBefore, timeIsZero, Bool.or_eq_true,
      decide_eq_true_iff, or_assoc]

/-- Claim C10: when the environment configuration has ReadOnly set, the
main upload pass dispatches no upload at all and the settings-data pass
dispatches nothing either, whatever the filenames. -/
theorem upload_readonly (c : uploadClient) (filenames : List String)
    (h : c.readOnly = true) :
    upload c filenames = [] ∧ uploadSettingsData c filenames = [] := by
  constructor
  · simp [upload, h]
  · simp [uploadSettingsData, h]

/-- Witness for claim C10 at a concrete read-only client. -/
theorem upload_readonly_witness :
    upload readOnlyClient ["layout/theme.liquid"] = []
    ∧ uploadSettingsData readOnlyClient ["layout/theme.liquid"] = [] :=
  upload_readonly readOnlyClient ["layout/theme.liquid"] rfl

theorem SMap.mem_keys_of_mem {α : Type} {m : SMap α} {p : String × α}
    (h : p ∈ m) : p.1 ∈ SMap.keys m :=
  List.mem_map_of_mem Prod.fst h

theorem SMap.not_mem_keys_eraseAll {α : Type} (m : SMap α) (k : String) :
    k ∉ SMap.keys (SMap.eraseAll m k) := by
  intro h
  obtain ⟨p, hp, hk⟩ := List.mem_map.mp h
  exact (SMap.mem_eraseAll hp).2 hk

theorem SMap.keys_nodup_eraseAll {α : Type} {m : SMap α} (k : String)
    (h : (SMap.keys m).Nodup) : (SMap.keys (SMap.eraseAll m k)).Nodup := by
  induction m with
  | nil => exact h
  | cons p rest ih =>
    obtain ⟨a, b⟩ := p
    simp only [SMap.keys, List.map_cons, List.nodup_cons] at h
    by_cases ha : a = k
    · simp only [SMap.eraseAll, if_pos ha]
      exact ih h.2
    · simp only [SMap.eraseAll, if_neg ha, SMap.keys, List.map_cons, List.nodup_cons]
      refine ⟨?_, ih h.2⟩
      intro hmem
      obtain ⟨q, hq, hk⟩ := List.mem_map.mp hmem
      exact h.1 (hk ▸ SMap.mem_keys_of_mem (SMap.mem_eraseAll hq).1)

theorem SMap.keys_nodup_insert {α : Type} {m : SMap α} (k : String) (v : α)
    (h : (SMap.keys m).Nodup) : (SMap.keys (SMap.insert m k v)).Nodup := by
  simp only [SMap.insert, SMap.keys, List.map_cons, List.nodup_cons]
  exact ⟨SMap.not_mem_keys_eraseAll m k, SMap.keys_nodup_eraseAll k h⟩

theorem SMap.mem_iff_find {α : Type} {m : SMap α} (h : (SMap.keys m).Nodup)
    (k : String) (v : α) : (k, v) ∈ m ↔ SMap.find m k = some v := by
  constructor
  · intro hm
    induction m with
    | nil => cases hm
    | cons p rest ih =>
      obtain ⟨a, b⟩ := p
      simp only [SMap.keys, List.map_cons, List.nodup_cons] at h
      rcases List.mem_cons.mp hm with h1 | h2
      · cases h1
        simp [SMap.find]
      · have hak : a ≠ k := by
          intro hh
          exact h.1 (hh ▸ SMap.mem_keys_of_mem h2)
        simp only [SMap.find, if_neg hak]
        exact ih h.2 h2
  · exact SMap.find_mem

theorem SMap.find_foldl_insert {α : Type} (v : α) (l : List String) :
    ∀ (acc : SMap α) (f : String),
      SMap.find (l.foldl (fun a k => SMap.insert a k v) acc) f =
        if f ∈ l then some v else SMap.find acc f := by
  induction l with
  | nil => intro acc f; simp
  | cons h t ih =>
    intro acc f
    simp only [List.foldl_cons, ih, List.mem_cons]
    by_cases ht : f ∈ t
    · simp [ht]
    · by_cases hf : f = h
      · subst hf
        simp [ht, SMap.find_insert_self]
      · simp [ht, hf, SMap.find_insert_ne _ _ _ _ hf]

theorem SMap.keys_nodup_foldl_insert {α : Type} (v : α) (l : List String) :
    ∀ (acc : SMap α), (SMap.keys acc).Nodup →
      (SMap.keys (l.foldl (fun a k => SMap.insert a k v) acc)).Nodup := by
  induction l with
  | nil => intro acc h; exact h
  | cons hd t ih =>
    intro acc h
    exact ih _ (SMap.keys_nodup_insert hd v h)

theorem replaceActions_keys_nodup (remoteKeys localKeys : List String) :
    (SMap.keys (replaceActions remoteKeys localKeys)).Nodup := by
  exact SMap.keys_nodup_foldl_insert _ localKeys _
    (SMap.keys_nodup_foldl_insert _ remoteKeys [] List.nodup_nil)

/-- Claim C8: in a full replace the action map holds an Upload for every
local asset key, a Remove exactly for the remote-only keys, at most one
event per filename (membership coincides with lookup under the nodup key
invariant), and never both a Remove and an Upload for one filename, which
settles the required Remove-before-Upload order vacuously. -/
theorem replace_full_run (remoteKeys localKeys : List String) (f : String)
    (k : assetEventKind) :
    (SMap.find (replaceActions remoteKeys localKeys) f =
      if f ∈ localKeys then some assetEventKind.Upload
      else if f ∈ remoteKeys then some assetEventKind.Remove
      else none)
    ∧ ((f, k) ∈ replaceActions remoteKeys localKeys ↔
        SMap.find (replaceActions remoteKeys localKeys) f = some k)
    ∧ ¬((f, assetEventKind.Remove) ∈ replaceActions remoteKeys localKeys
        ∧ (f, assetEventKind.Upload) ∈ replaceActions remoteKeys localKeys) := by
  have hnodup := replaceActions_keys_nodup remoteKeys localKeys
  have hfind : SMap.find (replaceActions remoteKeys localKeys) f =
      if f ∈ localKeys then some assetEventKind.Upload
      else if f ∈ remoteKeys then some assetEventKind.Remove
      else none := by
    simp only [replaceActions, SMap.find_foldl_insert]
    by_cases hl : f ∈ localKeys
    · simp [hl]
    · simp [hl, SMap.find]
  refine ⟨hfind, SMap.mem_iff_find hnodup f k, ?_⟩
  rintro ⟨h1, h2⟩
  rw [SMap.mem_iff_find hnodup] at h1 h2
  rw [h1] at h2
  cases h2

/-- Claim C7: FetchableFiles on an empty request returns exactly the keys
of the remote map; on a non-empty request a name is returned iff it is a
requested literal name without a wildcard, or some requested wildcard
pattern matches it among the remote keys. -/
theorem fetchableFiles_spec (m : fileManifest) (matchFn : String → String → Bool)
    (filenames : List String) (x : String) :
    (fileManifest.FetchableFiles m matchFn [] = SMap.keys m.remote)
    ∧ (filenames ≠ [] →
        (x ∈ fileManifest.FetchableFiles m matchFn filenames ↔
          (x ∈ filenames ∧ containsWildcard x = false)
          ∨ ∃ w ∈ filenames, containsWildcard w = true ∧ x ∈ SMap.keys m.remote
              ∧ matchFn w x = true)) := by
  constructor
  · rfl
  · intro hne
    have hlen : ¬(filenames.length ≤ 0) := by
      simp [Nat.le_zero, List.length_eq_zero, hne]
    simp only [fileManifest.FetchableFiles, if_neg hlen]
    by_cases hw : 0 < (filenames.filter (fun f => containsWildcard f)).length
    · simp only [if_pos hw, List.mem_append, List.mem_filter, List.mem_flatMap,
        List.mem_map, Bool.not_eq_true']
      constructor
      · rintro (⟨hx, hc⟩ | ⟨a, ha, w, ⟨⟨hwfn, hwc⟩, hmatch⟩, rfl⟩)
        · exact Or.inl ⟨hx, hc⟩
        · exact Or.inr ⟨w, hwfn, hwc, ha, hmatch⟩
      · rintro (⟨hx, hc⟩ | ⟨w, hwfn, hwc, hxk, hmatch⟩)
        · exact Or.inl ⟨hx, hc⟩
        · exact Or.inr ⟨x, hxk, w, ⟨⟨hwfn, hwc⟩, hmatch⟩, rfl⟩
    · simp only [if_neg hw, List.append_nil, List.mem_filter, Bool.not_eq_true']
      have hnowild : ∀ w ∈ filenames, ¬(containsWildcard w = true) := by
        intro w hwf hwc
        apply hw
        have : w ∈ filenames.filter (fun f => containsWildcard f) :=
          List.mem_filter.mpr ⟨hwf, hwc⟩
        exact List.length_pos.mpr (List.ne_nil_of_mem this)
      constructor
      · intro ⟨hx, hc⟩
        exact Or.inl ⟨hx, hc⟩
      · rintro (⟨hx, hc⟩ | ⟨w, hwfn, hwc, _⟩)
        · exact ⟨hx, hc⟩
        · exact absurd hwc (hnowild w hwfn)

/-- Counterexample to claim C2 as stated: a failing local-asset lookup is
not skipped; the run stops with that error and the remaining filename
produces no Upload event. -/
theorem replace_selective_counterexample :
    replaceSelective failingLookup ["a.liquid", "b.liquid"] [] =
      Except.error "open a.liquid: no such file"
    ∧ replaceSelective failingLookup ["a.liquid", "b.liquid"] [] ≠
      Except.ok [("b.liquid", assetEventKind.Upload)] := by
  constructor
  · rfl
  · intro h
    cases h

/-- Claim C2, amended: in a selective replace, filenames whose asset is
invalid are skipped and the run continues, and when every lookup succeeds
the run finishes without error having queued Uploads exactly for the valid
assets; but a filename whose local-asset lookup fails aborts the run at
once, returning that error. -/
theorem replace_selective_amended (lk : String → Except String asset)
    (acc : SMap assetEventKind) :
    (∀ (fs : List String), (∀ f ∈ fs, ∃ a, lk f = Except.ok a) →
      replaceSelective lk fs acc =
        Except.ok (fs.foldl (fun m f =>
          match lk f with
          | Except.ok a => if a.valid then SMap.insert m a.key assetEventKind.Upload else m
          | Except.error _ => m) acc))
    ∧ (∀ (pre post : List String) (f e : String),
        (∀ g ∈ pre, ∃ a, lk g = Except.ok a) → lk f = Except.error e →
        replaceSelective lk (pre ++ f :: post) acc = Except.error e) := by
  constructor
  · intro fs
    induction fs generalizing acc with
    | nil => intro _; rfl
    | cons hd t ih =>
      intro hok
      obtain ⟨a, ha⟩ := hok hd (List.mem_cons_self _ _)
      simp only [replaceSelective, ha, List.foldl_cons]
      by_cases hv : a.valid
      · simp only [if_pos hv]
        exact ih _ (fun g hg => hok g (List.mem_cons_of_mem _ hg))
      · simp only [if_neg hv]
        exact ih _ (fun g hg => hok g (List.mem_cons_of_mem _ hg))
  · intro pre
    induction pre generalizing acc with
    | nil =>
      intro post f e _ herr
      simp only [List.nil_append, replaceSelective, herr]
    | cons hd t ih =>
      intro post f e hok herr
      obtain ⟨a, ha⟩ := hok hd (List.mem_cons_self _ _)
      simp only [List.cons_append, replaceSelective, ha]
      by_cases hv : a.valid
      · simp only [if_pos hv]
        exact ih _ post f e (fun g hg => hok g (List.mem_cons_of_mem _ hg)) herr
      · simp only [if_neg hv]
        exact ih _ post f e (fun g hg => hok g (List.mem_cons_of_mem _ hg)) herr

/-- Witness for claim C2 amended: with all lookups succeeding, the valid
asset is uploaded and the invalid one is skipped. -/
theorem replace_selective_amended_witness :
    replaceSelective okLookup ["good.liquid", "bad.liquid"] [] =
      Except.ok [("good.liquid", assetEventKind.Upload)] := by
  have h := (replace_selective_amended okLookup []).1 ["good.liquid", "bad.liquid"]
    (by intro f hf; fin_cases hf <;> exact ⟨_, rfl⟩)
  rw [h]
  rfl

/-- Counterexample to claim C1 as stated: the remote map holds a triple
for a filename with no local entry at all, yet backfillLocal stages no
write for it and the reloaded local map still lacks the filename. -/
theorem backfill_counterexample :
    (("assets/new.js", [("development", "2021-01-01T00:00:00Z")]) ∈ freshManifest.remote)
    ∧ SMap.find freshManifest.localM "assets/new.js" = none
    ∧ freshManifest.backfillWrites = []
    ∧ SMap.find (freshManifest.backfillLocal).localM "assets/new.js" = none := by
  refine ⟨List.mem_cons_self _ _, rfl, rfl, rfl⟩

/-- Claim C1, amended: backfillLocal stages a write for every (filename,
environment, token) triple present in remote and missing from local,
provided the filename itself already has a local entry; a filename with no
local entry at all contributes no staged write; the batch is committed
once and localM is reloaded from the store. -/
theorem backfill_amended (m : fileManifest) (f e v : String) (envs localEnvs : SMap Version) :
    ((f, envs) ∈ m.remote → (e, v) ∈ envs → SMap.find m.localM f = some localEnvs →
      SMap.find localEnvs e = none → (f, e, v) ∈ m.backfillWrites)
    ∧ (SMap.find m.localM f = none → ∀ e' v', (f, e', v') ∉ m.backfillWrites)
    ∧ (m.backfillLocal.store = Store.commit m.store m.backfillWrites
        ∧ m.backfillLocal.localM = Store.dump m.backfillLocal.store) := by
  refine ⟨?_, ?_, rfl, rfl⟩
  · intro hremote henv hlocal hmiss
    apply List.mem_flatMap.mpr
    refine ⟨(f, envs), hremote, ?_⟩
    simp only [hlocal]
    apply List.mem_map.mpr
    refine ⟨(e, v), List.mem_filter.mpr ⟨henv, ?_⟩, rfl⟩
    simp [hmiss]
  · intro hnone e' v' hmem
    obtain ⟨fr, hfr, hx⟩ := List.mem_flatMap.mp hmem
    cases hfind : SMap.find m.localM fr.1 with
    | none => simp only [hfind] at hx; cases hx
    | some le =>
      simp only [hfind] at hx
      obtain ⟨ev, _, heq⟩ := List.mem_map.mp hx
      have : fr.1 = f := congrArg (fun t => t.1) heq
      rw [this] at hfind
      rw [hnone] at hfind
      cases hfind

/-- Witness for claim C1 amended: a remote environment missing from an
existing local entry is staged. -/
theorem backfill_amended_witness :
    ("layout/theme.liquid", "production", "t3") ∈ seededManifest.backfillWrites :=
  (backfill_amended seededManifest "layout/theme.liquid" "production" "t3"
    [("development", "t2"), ("production", "t3")] [("development", "t1")]).1
    (List.mem_cons_self _ _)
    (by decide)
    (by decide)
    (by decide)

theorem entryVal_mergeAsset (m : SMap (SMap Version)) (env : String)
    (a : String × Version) (f e : String) :
    entryVal (mergeAsset m env a) f e =
      if f = a.1 ∧ e = env then some a.2 else entryVal m f e := by
  obtain ⟨k, t⟩ := a
  by_cases hf : f = k
  · subst hf
    simp only [entryVal, mergeAsset, SMap.find_insert_self, Option.bind_some]
    by_cases he : e = env
    · subst he
      simp [SMap.find_insert_self]
    · simp only [he, and_false, if_false]
      cases hcol : SMap.find m f with
      | none =>
        have hne : ¬env = e := fun hh => he hh.symm
        simp [SMap.find_insert_ne _ _ _ _ he, SMap.find, hne]
      | some c => simp [SMap.find_insert_ne _ _ _ _ he]
  · simp [entryVal, mergeAsset, SMap.find_insert_ne _ _ _ _ hf, hf]

theorem entryVal_innerFold_src (env f e : String) (v : Version) :
    ∀ (assets : List (String × Version)) (m : SMap (SMap Version)),
      entryVal (assets.foldl (fun r a => mergeAsset r env a) m) f e = some v →
      entryVal m f e = some v ∨ (env = e ∧ (f, v) ∈ assets) := by
  intro assets
  induction assets with
  | nil => intro m h; exact Or.inl h
  | cons a rest ih =>
    intro m h
    rcases ih _ h with h1 | h2
    · rw [entryVal_mergeAsset] at h1
      by_cases hc : f = a.1 ∧ e = env
      · rw [if_pos hc] at h1
        cases h1
        exact Or.inr ⟨hc.2.symm, by rw [hc.1]; exact List.mem_cons_self _ _⟩
      · rw [if_neg hc] at h1
        exact Or.inl h1
    · exact Or.inr ⟨h2.1, List.mem_cons_of_mem _ h2.2⟩

theorem entryVal_innerFold_pres (env f e : String) :
    ∀ (assets : List (String × Version)) (m : SMap (SMap Version)),
      (entryVal m f e).isSome = true →
      (entryVal (assets.foldl (fun r a => mergeAsset r env a) m) f e).isSome = true := by
  intro assets
  induction assets with
  | nil => intro m h; exact h
  | cons a rest ih =>
    intro m h
    apply ih
    rw [entryVal_mergeAsset]
    by_cases hc : f = a.1 ∧ e = env
    · rw [if_pos hc]; rfl
    · rw [if_neg hc]; exact h

theorem entryVal_innerFold_mem (env f : String) (v : Version) :
    ∀ (assets : List (String × Version)) (m : SMap (SMap Version)),
      (f, v) ∈ assets →
      (entryVal (assets.foldl (fun r a => mergeAsset r env a) m) f env).isSome = true := by
  intro assets
  induction assets with
  | nil => intro m h; cases h
  | cons a rest ih =>
    intro m h
    rcases List.mem_cons.mp h with h1 | h2
    · rw [List.foldl_cons]
      apply entryVal_innerFold_pres
      rw [entryVal_mergeAsset, if_pos ⟨by rw [← h1], rfl⟩]
      rfl
    · exact ih _ h2

theorem generateRemote_err_aux :
    ∀ (cs : List clientResult) (p : SMap (SMap Version) × Option String),
      (cs.foldl
        (fun acc cr =>
          match cr.assetList with
          | Except.error e =>
            (acc.1, match acc.2 with
              | some e0 => some e0
              | none => some e)
          | Except.ok assets =>
            (assets.foldl (fun r a => mergeAsset r cr.environment a) acc.1, acc.2)) p).2 =
      match p.2 with
      | some e0 => some e0
      | none => firstError cs := by
  intro cs
  induction cs with
  | nil => intro p; cases hp : p.2 <;> simp [firstError, hp]
  | cons cr rest ih =>
    intro p
    rw [List.foldl_cons, ih]
    cases hcr : cr.assetList with
    | error e =>
      cases hp : p.2 with
      | some e0 => simp [hcr, hp]
      | none => simp [hcr, hp, firstError, List.findSome?_cons]
    | ok assets =>
      cases hp : p.2 with
      | some e0 => simp [hcr, hp]
      | none => simp [hcr, hp, firstError, List.findSome?_cons]

theorem generateRemote_src_aux (f e : String) (v : Version) :
    ∀ (cs : List clientResult) (p : SMap (SMap Version) × Option String),
      entryVal (cs.foldl
        (fun acc cr =>
          match cr.assetList with
          | Except.error err =>
            (acc.1, match acc.2 with
              | some e0 => some e0
              | none => some err)
          | Except.ok assets =>
            (assets.foldl (fun r a => mergeAsset r cr.environment a) acc.1, acc.2)) p).1 f e
        = some v →
      entryVal p.1 f e = some v
      ∨ ∃ cr ∈ cs, cr.environment = e
          ∧ ∃ assets, cr.assetList = Except.ok assets ∧ (f, v) ∈ assets := by
  intro cs
  induction cs with
  | nil => intro p h; exact Or.inl h
  | cons cr rest ih =>
    intro p h
    rw [List.foldl_cons] at h
    cases hcr : cr.assetList with
    | error err =>
      rw [hcr] at h
      rcases ih _ h with h1 | ⟨cr', hmem, hrest⟩
      · exact Or.inl h1
      · exact Or.inr ⟨cr', List.mem_cons_of_mem _ hmem, hrest⟩
    | ok assets =>
      rw [hcr] at h
      rcases ih _ h with h1 | ⟨cr', hmem, hrest⟩
      · rcases entryVal_innerFold_src cr.environment f e v assets p.1 h1 with h2 | h2
        · exact Or.inl h2
        · exact Or.inr ⟨cr, List.mem_cons_self _ _, h2.1, assets, hcr, h2.2⟩
      · exact Or.inr ⟨cr', List.mem_cons_of_mem _ hmem, hrest⟩

theorem generateRemote_pres_aux (f e : String) :
    ∀ (cs : List clientResult) (p : SMap (SMap Version) × Option String),
      (entryVal p.1 f e).isSome = true →
      (entryVal (cs.foldl
        (fun acc cr =>
          match cr.assetList with
          | Except.error err =>
            (acc.1, match acc.2 with
              | some e0 => some e0
              | none => some err)
          | Except.ok assets =>
            (assets.foldl (fun r a => mergeAsset r cr.environment a) acc.1, acc.2)) p).1 f e).isSome
        = true := by
  intro cs
  induction cs with
  | nil => intro p h; exact h
  | cons cr rest ih =>
    intro p h
    rw [List.foldl_cons]
    cases hcr : cr.assetList with
    | error err =>
      exact ih _ h
    | ok assets =>
      exact ih _ (entryVal_innerFold_pres cr.environment f e assets p.1 h)

theorem generateRemote_contrib_aux (f : String) (v : Version) :
    ∀ (cs : List clientResult) (p : SMap (SMap Version) × Option String)
      (cr : clientResult) (assets : List (String × Version)),
      cr ∈ cs → cr.assetList = Except.ok assets → (f, v) ∈ assets →
      (entryVal (cs.foldl
        (fun acc cr =>
          match cr.assetList with
          | Except.error err =>
            (acc.1, match acc.2 with
              | some e0 => some e0
              | none => some err)
          | Except.ok assets =>
            (assets.foldl (fun r a => mergeAsset r cr.environment a) acc.1, acc.2)) p).1
        f cr.environment).isSome = true := by
  intro cs
  induction cs with
  | nil => intro p cr assets hmem; cases hmem
  | cons hd rest ih =>
    intro p cr assets hmem hok hv
    rw [List.foldl_cons]
    rcases List.mem_cons.mp hmem with h1 | h2
    · subst h1
      rw [hok]
      exact generateRemote_pres_aux f cr.environment rest _
        (entryVal_innerFold_mem cr.environment f v assets p.1 hv)
    · cases hhd : hd.assetList with
      | error err => exact ih _ cr assets h2 hok hv
      | ok hassets => exact ih _ cr assets h2 hok hv

/-- Claim C9: generateRemote consumes every launched query outcome in
completion order, returns the first error in completion order (none when
all succeed), every entry of the produced remote map comes from a
successful listing of a client with that environment, and every successful
listing contributes its entries even when sibling queries failed. -/
theorem generateRemote_spec (cs : List clientResult) (f e : String) (v : Version) :
    ((generateRemote cs).2 = firstError cs)
    ∧ (entryVal (generateRemote cs).1 f e = some v →
        ∃ cr ∈ cs, cr.environment = e
          ∧ ∃ assets, cr.assetList = Except.ok assets ∧ (f, v) ∈ assets)
    ∧ (∀ (cr : clientResult) (assets : List (String × Version)),
        cr ∈ cs → cr.assetList = Except.ok assets → (f, v) ∈ assets →
        (entryVal (generateRemote cs).1 f cr.environment).isSome = true) := by
  refine ⟨?_, ?_, ?_⟩
  · exact generateRemote_err_aux cs ([], none)
  · intro h
    rcases generateRemote_src_aux f e v cs ([], none) h with h1 | h1
    · cases h1
    · exact h1
  · intro cr assets hmem hok hv
    exact generateRemote_contrib_aux f v cs ([], none) cr assets hmem hok hv

theorem entryPresent_eq_of_find_eq {s t : Store} {f : String}
    (h : SMap.find s f = SMap.find t f) (e : String) :
    entryPresent s f e = entryPresent t f e := by
  unfold entryPresent
  rw [h]

theorem find_eraseAll_pres_none {α : Type} {m : SMap α} {f : String} (k : String)
    (h : SMap.find m f = none) : SMap.find (SMap.eraseAll m k) f = none := by
  by_cases hk : k = f
  · subst hk; exact SMap.find_eraseAll_self m k
  · rw [SMap.find_eraseAll_ne _ _ _ (fun hh => hk hh.symm)]; exact h

theorem passA_pres_none (p : String → Bool) (f : String) :
    ∀ (l : List (String × SMap Version)) (s : Store), SMap.find s f = none →
      SMap.find (l.foldl
        (fun s fr => if p fr.1 then Store.deleteCollection s fr.1 else s) s) f = none := by
  intro l
  induction l with
  | nil => intro s h; exact h
  | cons fr rest ih =>
    intro s h
    rw [List.foldl_cons]
    by_cases hp : p fr.1
    · rw [if_pos hp]
      exact ih _ (find_eraseAll_pres_none fr.1 h)
    · rw [if_neg hp]
      exact ih _ h

theorem passA_deletes (p : String → Bool) (f : String) (hp : p f = true) :
    ∀ (l : List (String × SMap Version)) (s : Store) (c : SMap Version), (f, c) ∈ l →
      SMap.find (l.foldl
        (fun s fr => if p fr.1 then Store.deleteCollection s fr.1 else s) s) f = none := by
  intro l
  induction l with
  | nil => intro s c h; cases h
  | cons fr rest ih =>
    intro s c h
    rw [List.foldl_cons]
    rcases List.mem_cons.mp h with h1 | h2
    · rw [← h1, if_pos hp]
      exact passA_pres_none p f rest _ (SMap.find_eraseAll_self s f)
    · exact ih _ c h2

theorem passA_keeps (p : String → Bool) (f : String) (hp : p f = false) :
    ∀ (l : List (String × SMap Version)) (s : Store),
      SMap.find (l.foldl
        (fun s fr => if p fr.1 then Store.deleteCollection s fr.1 else s) s) f =
        SMap.find s f := by
  intro l
  induction l with
  | nil => intro s; rfl
  | cons fr rest ih =>
    intro s
    rw [List.foldl_cons]
    by_cases hpf : p fr.1
    · rw [if_pos hpf, ih]
      have hne : fr.1 ≠ f := fun hh => by rw [hh] at hpf; rw [hp] at hpf; cases hpf
      exact SMap.find_eraseAll_ne _ _ _ (fun hh => hne hh.symm)
    · rw [if_neg hpf, ih]

theorem entryPresent_delete_other {s : Store} {f e c k : String}
    (h : c ≠ f ∨ k ≠ e) :
    entryPresent (Store.delete s c k) f e = entryPresent s f e := by
  unfold Store.delete
  cases hf : SMap.find s c with
  | none => rfl
  | some col =>
    by_cases hcf : c = f
    · subst hcf
      rcases h with h1 | h1
      · exact absurd rfl h1
      · unfold entryPresent
        rw [SMap.find_insert_self, hf]
        show (SMap.find (SMap.eraseAll col k) e).isSome = (SMap.find col e).isSome
        rw [SMap.find_eraseAll_ne col e k (fun hh => h1 hh.symm)]
    · unfold entryPresent
      rw [SMap.find_insert_ne _ _ _ _ (fun hh => hcf hh.symm)]

theorem entryPresent_delete_self (s : Store) (f e : String) :
    entryPresent (Store.delete s f e) f e = false := by
  unfold Store.delete
  cases hf : SMap.find s f with
  | none => unfold entryPresent; rw [hf]
  | some col =>
    unfold entryPresent
    rw [SMap.find_insert_self]
    show (SMap.find (SMap.eraseAll col e) e).isSome = false
    rw [SMap.find_eraseAll_self]
    rfl

theorem entryPresent_delete_pres_false {s : Store} {f e : String} (c k : String)
    (h : entryPresent s f e = false) :
    entryPresent (Store.delete s c k) f e = false := by
  by_cases hc : c = f ∧ k = e
  · rw [hc.1, hc.2]
    exact entryPresent_delete_self s f e
  · rw [entryPresent_delete_other (by tauto)]
    exact h

theorem passB_inner_pres_false (q : String → Bool) (f e c : String) :
    ∀ (envs : SMap Version) (s : Store), entryPresent s f e = false →
      entryPresent (envs.foldl
        (fun s2 ev => if q ev.1 then s2 else Store.delete s2 c ev.1) s) f e = false := by
  intro envs
  induction envs with
  | nil => intro s h; exact h
  | cons ev rest ih =>
    intro s h
    rw [List.foldl_cons]
    by_cases hq : q ev.1
    · rw [if_pos hq]; exact ih _ h
    · rw [if_neg hq]; exact ih _ (entryPresent_delete_pres_false c ev.1 h)

theorem passB_pres_false (q : String → Bool) (f e : String) :
    ∀ (l : List (String × SMap Version)) (s : Store), entryPresent s f e = false →
      entryPresent (l.foldl
        (fun s fr => fr.2.foldl
          (fun s2 ev => if q ev.1 then s2 else Store.delete s2 fr.1 ev.1) s) s) f e
        = false := by
  intro l
  induction l with
  | nil => intro s h; exact h
  | cons fr rest ih =>
    intro s h
    rw [List.foldl_cons]
    exact ih _ (passB_inner_pres_false q f e fr.1 fr.2 s h)

theorem passB_inner_keeps (q : String → Bool) (f e c : String) (hq : q e = true) :
    ∀ (envs : SMap Version) (s : Store),
      entryPresent (envs.foldl
        (fun s2 ev => if q ev.1 then s2 else Store.delete s2 c ev.1) s) f e =
      entryPresent s f e := by
  intro envs
  induction envs with
  | nil => intro s; rfl
  | cons ev rest ih =>
    intro s
    rw [List.foldl_cons]
    by_cases hqe : q ev.1
    · rw [if_pos hqe, ih]
    · rw [if_neg hqe, ih, entryPresent_delete_other]
      right
      intro hh
      rw [hh, hq] at hqe
      exact hqe rfl

theorem passB_keeps (q : String → Bool) (f e : String) (hq : q e = true) :
    ∀ (l : List (String × SMap Version)) (s : Store),
      entryPresent (l.foldl
        (fun s fr => fr.2.foldl
          (fun s2 ev => if q ev.1 then s2 else Store.delete s2 fr.1 ev.1) s) s) f e =
      entryPresent s f e := by
  intro l
  induction l with
  | nil => intro s; rfl
  | cons fr rest ih =>
    intro s
    rw [List.foldl_cons, ih, passB_inner_keeps q f e fr.1 hq]

theorem passB_inner_kills (q : String → Bool) (f e : String) (v : Version)
    (hq : q e = false) :
    ∀ (envs : SMap Version) (s : Store), (e, v) ∈ envs →
      entryPresent (envs.foldl
        (fun s2 ev => if q ev.1 then s2 else Store.delete s2 f ev.1) s) f e = false := by
  intro envs
  induction envs with
  | nil => intro s h; cases h
  | cons ev rest ih =>
    intro s h
    rcases List.mem_cons.mp h with h1 | h2
    · rw [List.foldl_cons, ← h1, if_neg (by rw [hq]; intro hh; cases hh)]
      exact passB_inner_pres_false q f e f rest _ (entryPresent_delete_self s f e)
    · rw [List.foldl_cons]
      exact ih _ h2

theorem passB_kills (q : String → Bool) (f e : String) (v : Version)
    (hq : q e = false) :
    ∀ (l : List (String × SMap Version)) (s : Store) (c : SMap Version),
      (f, c) ∈ l → (e, v) ∈ c →
      entryPresent (l.foldl
        (fun s fr => fr.2.foldl
          (fun s2 ev => if q ev.1 then s2 else Store.delete s2 fr.1 ev.1) s) s) f e
        = false := by
  intro l
  induction l with
  | nil => intro s c h; cases h
  | cons fr rest ih =>
    intro s c h hv
    rw [List.foldl_cons]
    rcases List.mem_cons.mp h with h1 | h2
    · apply passB_pres_false
      have : fr = (f, c) := h1.symm
      rw [this]
      exact passB_inner_kills q f e v hq c s hv
    · exact ih _ c h2 hv

/-- Claim C3, amended: a (filename, environment) entry of the local map
survives prune iff the remote map contains the filename or some configured
client directory holds the file on disk, and additionally the environment
is among the configured clients; stated for a manifest whose local map
mirrors the store, as every manifest mutation maintains. -/
theorem prune_amended (m : fileManifest) (fs : List (String × String))
    (clients : List themeClient) (f e : String)
    (hmirror : m.localM = m.store)
    (hpre : entryPresent m.localM f e = true) :
    entryPresent (m.prune fs clients).localM f e = true ↔
      (((SMap.find m.remote f).isSome = true
          ∨ ∃ c ∈ clients, fileExists fs c.directory f = true)
        ∧ ∃ c ∈ clients, c.environment = e) := by
  obtain ⟨col, hl, v, hce⟩ :
      ∃ col, SMap.find m.localM f = some col ∧ ∃ v, SMap.find col e = some v := by
    unfold entryPresent at hpre
    cases hl : SMap.find m.localM f with
    | none => rw [hl] at hpre; simp at hpre
    | some c =>
      rw [hl] at hpre
      simp only [] at hpre
      cases hce : SMap.find c e with
      | none => rw [hce] at hpre; simp at hpre
      | some v => exact ⟨c, rfl, v, hce⟩
  have hmemL : (f, col) ∈ m.localM := SMap.find_mem hl
  have hmemC : (e, v) ∈ col := SMap.find_mem hce
  have hBool : entryPresent (m.prune fs clients).localM f e =
      (((SMap.find m.remote f).isSome
          || clients.any (fun c => fileExists fs c.directory f))
        && clients.any (fun c => c.environment == e)) := by
    show entryPresent
        (m.localM.foldl
          (fun s fr => fr.2.foldl
            (fun s2 ev => if clients.any (fun c => c.environment == ev.1) then s2
              else Store.delete s2 fr.1 ev.1) s)
          (m.localM.foldl
            (fun s fr =>
              if (SMap.find m.remote fr.1).isNone
                  && !(clients.any (fun c => fileExists fs c.directory fr.1))
              then Store.deleteCollection s fr.1 else s)
            m.store)) f e = _
    by_cases hkf : ((SMap.find m.remote f).isSome
        || clients.any (fun c => fileExists fs c.directory f)) = true
    · have hpf : ((SMap.find m.remote f).isNone
          && !(clients.any (fun c => fileExists fs c.directory f))) = false := by
        rcases Bool.or_eq_true_iff.mp hkf with h1 | h1
        · cases hro : SMap.find m.remote f with
          | none => rw [hro] at h1; cases h1
          | some w => simp [hro]
        · simp [h1]
      have hfind1 : SMap.find
          (m.localM.foldl
            (fun s fr =>
              if (SMap.find m.remote fr.1).isNone
                  && !(clients.any (fun c => fileExists fs c.directory fr.1))
              then Store.deleteCollection s fr.1 else s)
            m.store) f = SMap.find m.store f :=
        passA_keeps
          (fun x => (SMap.find m.remote x).isNone
            && !(clients.any (fun c => fileExists fs c.directory x)))
          f hpf m.localM m.store
      have hpres1 : entryPresent
          (m.localM.foldl
            (fun s fr =>
              if (SMap.find m.remote fr.1).isNone
                  && !(clients.any (fun c => fileExists fs c.directory fr.1))
              then Store.deleteCollection s fr.1 else s)
            m.store) f e = true := by
        rw [entryPresent_eq_of_find_eq hfind1 e, ← hmirror]
        exact hpre
      by_cases hqe : clients.any (fun c => c.environment == e) = true
      · rw [hkf, hqe, Bool.true_and]
        exact (passB_keeps (fun x => clients.any (fun c => c.environment == x))
          f e hqe m.localM _).trans hpres1
      · have hqe' : clients.any (fun c => c.environment == e) = false :=
          Bool.eq_false_iff.mpr hqe
        rw [hqe', Bool.and_false]
        exact passB_kills (fun x => clients.any (fun c => c.environment == x))
          f e v hqe' m.localM _ col hmemL hmemC
    · have hkf' : ((SMap.find m.remote f).isSome
          || clients.any (fun c => fileExists fs c.directory f)) = false :=
        Bool.eq_false_iff.mpr hkf
      rw [hkf', Bool.false_and]
      have hpf : ((SMap.find m.remote f).isNone
          && !(clients.any (fun c => fileExists fs c.directory f))) = true := by
        rcases Bool.or_eq_false_iff.mp hkf' with ⟨h1, h2⟩
        cases hro : SMap.find m.remote f with
        | some w => rw [hro] at h1; cases h1
        | none => simp [hro, h2]
      have hdel : SMap.find
          (m.localM.foldl
            (fun s fr =>
              if (SMap.find m.remote fr.1).isNone
                  && !(clients.any (fun c => fileExists fs c.directory fr.1))
              then Store.deleteCollection s fr.1 else s)
            m.store) f = none :=
        passA_deletes
          (fun x => (SMap.find m.remote x).isNone
            && !(clients.any (fun c => fileExists fs c.directory x)))
          f hpf m.localM m.store col hmemL
      exact passB_pres_false (fun x => clients.any (fun c => c.environment == x))
        f e m.localM _ (by unfold entryPresent; rw [hdel])
  rw [hBool]
  simp [Bool.and_eq_true, Bool.or_eq_true, List.any_eq_true, beq_iff_eq]

/-- Counterexample to claim C3 as stated: the remote map still contains
the filename, yet the entry under the no-longer-configured environment is
removed by the second prune pass. -/
theorem prune_counterexample :
    (SMap.find staleEnvManifest.remote "snippets/x.liquid").isSome = true
    ∧ entryPresent staleEnvManifest.localM "snippets/x.liquid" "staging" = true
    ∧ entryPresent (staleEnvManifest.prune [] pruneClients).localM
        "snippets/x.liquid" "staging" = false := by
  refine ⟨rfl, rfl, rfl⟩

/-- Witness for claim C3 amended: an entry kept by both prune passes. -/
theorem prune_amended_witness :
    entryPresent (keptManifest.prune [] pruneClients).localM
      "assets/app.js" "production" = true :=
  (prune_amended keptManifest [] pruneClients "assets/app.js" "production" rfl
    (by decide)).mpr
    ⟨Or.inl (by decide),
     ⟨{ environment := "production", directory := "/theme" },
      List.mem_cons_self _ _, rfl⟩⟩

/-- Witness for claim C5 at a concrete stored entry and an empty store. -/
theorem delete_get_witness :
    fileManifest.Get
      (fileManifest.Delete storedManifest "config/settings_data.json" "development")
      "config/settings_data.json" "development" = ("", none)
    ∧ fileManifest.Get emptyManifest "config/settings_data.json" "development" =
        ("", none) :=
  ⟨(delete_then_get storedManifest "config/settings_data.json" "development").1,
   (delete_then_get emptyManifest "config/settings_data.json" "development").2.1 rfl⟩

/-- Witness for claim C7: a wildcard request picks up a matching remote
key. -/
theorem fetchable_witness :
    "base.css" ∈ fileManifest.FetchableFiles fetchManifest cssMatch
      ["a.liquid", "*.css"] :=
  ((fetchableFiles_spec fetchManifest cssMatch ["a.liquid", "*.css"] "base.css").2
    (by decide)).mpr
    (Or.inr ⟨"*.css", by decide, by decide, by decide, by decide⟩)

/-- Witness for claim C9 at one failing and one succeeding listing. -/
theorem generateRemote_witness :
    (generateRemote [listingFailed, listingOk]).2 =
      firstError [listingFailed, listingOk]
    ∧ (entryVal (generateRemote [listingFailed, listingOk]).1
        "layout/theme.liquid" "development").isSome = true :=
  ⟨(generateRemote_spec [listingFailed, listingOk]
      "layout/theme.liquid" "development" "t1").1,
   (generateRemote_spec [listingFailed, listingOk]
      "layout/theme.liquid" "development" "t1").2.2
     listingOk [("layout/theme.liquid", "t1")]
     (List.mem_cons_of_mem _ (List.mem_cons_self _ _)) rfl (List.mem_cons_self _ _)⟩


/-- Witness for claim C4 at a concrete manifest and entry. -/
theorem set_then_get_witness :
    fileManifest.Get (fileManifest.Set emptyManifest "layout/theme.liquid"
      "development" "t1") "layout/theme.liquid" "development" = ("t1", none) :=
  set_then_get emptyManifest "layout/theme.liquid" "development" "t1"

/-- Witness for claim C6: a ledger token with no remote counterpart makes
ShouldUpload hold. -/
theorem decision_truth_table_witness :
    fileManifest.ShouldUpload diffManifest ptLen "assets/app.css" "development" = true :=
  (decision_truth_table diffManifest ptLen "assets/app.css" "development").2.1.mpr
    (Or.inl (by decide))

/-- Witness for claim C8: a remote-only filename receives a Remove event. -/
theorem replace_full_run_witness :
    SMap.find (replaceActions ["assets/old.js", "assets/keep.js"]
      ["assets/keep.js", "assets/new.js"]) "assets/old.js" =
      some assetEventKind.Remove := by
  rw [(replace_full_run ["assets/old.js", "assets/keep.js"]
    ["assets/keep.js", "assets/new.js"] "assets/old.js" assetEventKind.Remove).1]
  decide

end Themekit
